import Mathlib

/-!
Verification of the algorithmic kernel of `mball_maker_script.py`
(shell point sampler `sphere_pts`, symmetrizer `symmetrize`, and the
hierarchy-building loop of `make_objects`).

Coordinates are modelled as rationals.  The deterministic trigonometric
candidate grid (lines 36-46 of the source) and the `random.shuffle` call
(line 47) are abstracted into an explicit `vertices` argument: the rest of
`sphere_pts` depends on the grid and the shuffle only through the shuffled
candidate list, and a run of the hierarchy builder is parameterised by an
`oracle` giving the shuffled candidate list seen by each successive call.
A failed Python `assert` is modelled as the `none` result.
-/

/-- A 3D point `[x, y, z]` as produced by `sphere_pts`. -/
structure Point where
  x : ℚ
  y : ℚ
  z : ℚ
deriving DecidableEq, Repr

/-- A blob `[x, y, z, r]`: a point tagged with a radius, as accumulated in
`meta_coords` by `make_objects`. -/
structure Blob where
  x : ℚ
  y : ℚ
  z : ℚ
  r : ℚ
deriving DecidableEq, Repr

/-- The point part `x[0:3]` of a blob. -/
def Blob.pos (b : Blob) : Point := ⟨b.x, b.y, b.z⟩

/-- Embedding of `sphere_pts(n_pts, n_smp, radius, min_dist, previous)`
(src/mball_maker_script.py lines 32-61).  The candidate grid built from
`n_smp` and `radius` (lines 36-46) followed by `random.shuffle` (line 47)
is abstracted into the `vertices` argument; lines 48-61 are embedded
literally.  The two `assert` statements (even point count, line 35; equal
left/right pools, line 55) become `none`.  `np.int(n_pts/2)` truncates,
which is `n_pts / 2` on naturals. -/
def sphere_pts (n_pts : ℕ) (min_dist : ℚ) (previous : Point)
    (vertices : List Point) : Option (List Point) :=
  if n_pts % 2 = 0 then
    let vs :=
      if previous.x < 0 then vertices.filter (fun a => a.x + previous.x < 0)
      else if 0 < previous.x then vertices.filter (fun a => 0 < a.x + previous.x)
      else vertices
    if previous.x = 0 then
      let left_v := vs.filter (fun a => a.x < -min_dist)
      let right_v := vs.filter (fun a => min_dist < a.x)
      if left_v.length = right_v.length then
        some (left_v.take (n_pts / 2) ++ right_v.take (n_pts / 2))
      else none
    else some (vs.take n_pts)
  else none

/-- The list `l_pts + r_pts` computed by `symmetrize` (lines 64-68) before
the length assertion: the blobs with `x < 0` followed by their mirror
images across the plane `x = 0`. -/
def symmetrize_raw (loc : List Blob) : List Blob :=
  let l_pts := loc.filter (fun a => a.x < 0)
  let r_pts := l_pts.map (fun a => Blob.mk (-a.x) a.y a.z a.r)
  l_pts ++ r_pts

/-- Embedding of `symmetrize(loc)` (lines 63-70).  The `assert len(out) ==
len(loc)` on line 69 becomes `none`. -/
def symmetrize (loc : List Blob) : Option (List Blob) :=
  if (symmetrize_raw loc).length = loc.length then some (symmetrize_raw loc)
  else none

/-- Embedding of the inner `for q in range(len(loc_pts))` loop of
`make_objects` (lines 83-87): one `sphere_pts` call per parent point, each
sampled point translated by its parent and tagged with the level's blob
radius `r`.  `range(len(loc_pts))` fixes the parent prefix at loop entry,
so the loop reads exactly the parents present when the level begins; the
appended children are collected here and added to the active set in
`make_level`.  The counter `k` indexes the oracle's shuffled candidate
lists, one per `sphere_pts` call. -/
def level_calls (n : ℕ) (r min_dist : ℚ) (oracle : ℕ → List Point) :
    List Point → ℕ → Option (List Blob × ℕ)
  | [], k => some ([], k)
  | p :: ps, k =>
    match sphere_pts n min_dist p (oracle k) with
    | none => none
    | some pts =>
      let loc_tmp := pts.map (fun a => Blob.mk (a.x + p.x) (a.y + p.y) (a.z + p.z) r)
      match level_calls n r min_dist oracle ps (k + 1) with
      | none => none
      | some (rest, k2) => some (loc_tmp ++ rest, k2)

/-- Embedding of one iteration of the outer level loop of `make_objects`
(lines 82-88): run `sphere_pts` for every current parent, append the new
points `[x[0:3] for x in loc_tmp]` to `loc_pts`, then `loc_pts.remove(d)`
for each parent `d` (line 88).  Python's `list.remove` deletes the first
occurrence by value, which is `List.erase`; removing each element of the
parent list in order is `List.diff`. -/
def make_level (n : ℕ) (r min_dist : ℚ) (oracle : ℕ → List Point)
    (loc_pts : List Point) (k : ℕ) : Option (List Blob × List Point × ℕ) :=
  match level_calls n r min_dist oracle loc_pts k with
  | none => none
  | some (blobs, k2) =>
    some (blobs, (loc_pts ++ blobs.map Blob.pos).diff loc_pts, k2)

/-- The fixed per-level parameters of `make_objects` (lines 76-78): child
count `meta_n`, shell diameter `meta_d` and blob radius `meta_r` for each
level.  `meta_d` feeds only the abstracted candidate grid. -/
def meta_levels : List (ℕ × ℚ × ℚ) :=
  [(8, 6/5, 3/5), (4, 4/5, 2/5), (2, 2/5, 1/5)]

/-- The level loop of `make_objects` (lines 81-88), folding `make_level`
over the level parameters while accumulating `meta_coords`. -/
def build_loop (min_dist : ℚ) (oracle : ℕ → List Point) :
    List (ℕ × ℚ × ℚ) → List Point → ℕ → List Blob → Option (List Blob)
  | [], _, _, acc => some acc
  | (n, _, r) :: rest, loc_pts, k, acc =>
    match make_level n r min_dist oracle loc_pts k with
    | none => none
    | some (blobs, new_pts, k2) =>
      build_loop min_dist oracle rest new_pts k2 (acc ++ blobs)

/-- The coordinate-generation core of `make_objects` (lines 79-88): start
from the single root point at the origin and run the level loop, returning
the flat blob list `meta_coords` before symmetrization. -/
def make_objects_coords (min_dist : ℚ) (oracle : ℕ → List Point) :
    Option (List Blob) :=
  build_loop min_dist oracle meta_levels [⟨0, 0, 0⟩] 0 []

/-! ### Helper lemmas -/

theorem symmetrize_raw_length (loc : List Blob) :
    (symmetrize_raw loc).length = 2 * (loc.filter (fun a => a.x < 0)).length := by
  simp [symmetrize_raw]
  ring

theorem symmetrize_eq_some {loc out : List Blob} (h : symmetrize loc = some out) :
    out = symmetrize_raw loc ∧ out.length = loc.length := by
  unfold symmetrize at h
  by_cases hc : (symmetrize_raw loc).length = loc.length
  · rw [if_pos hc] at h
    have := Option.some.inj h
    exact ⟨this.symm, this ▸ hc⟩
  · rw [if_neg hc] at h
    exact absurd h (by simp)

theorem mem_filter_neg_x {loc : List Blob} {b : Blob}
    (h : b ∈ loc.filter (fun a => a.x < 0)) : b ∈ loc ∧ b.x < 0 := by
  simpa using List.mem_filter.mp h

theorem filter_symmetrize_raw (loc : List Blob) :
    (symmetrize_raw loc).filter (fun a => a.x < 0) = loc.filter (fun a => a.x < 0) := by
  unfold symmetrize_raw
  rw [List.filter_append, List.filter_filter]
  have h1 : (loc.filter (fun a => decide (a.x < 0) && decide (a.x < 0))) =
      loc.filter (fun a => a.x < 0) := by
    simp
  have h2 : ((loc.filter (fun a => a.x < 0)).map
      (fun a => Blob.mk (-a.x) a.y a.z a.r)).filter (fun a => a.x < 0) = [] := by
    rw [List.filter_eq_nil_iff]
    intro b hb
    obtain ⟨a, ha, rfl⟩ := List.mem_map.mp hb
    have := (mem_filter_neg_x ha).2
    simp only [decide_eq_true_eq]
    intro hcon
    exact absurd hcon (by simpa using le_of_lt (neg_pos.mpr this))
  rw [h1, h2, List.append_nil]

theorem symmetrize_raw_idem (loc : List Blob) :
    symmetrize_raw (symmetrize_raw loc) = symmetrize_raw loc := by
  conv_lhs => rw [symmetrize_raw]
  rw [filter_symmetrize_raw]
  rfl

/-! ### Symmetrizer claims -/

/-- C1 (counterexample): `symmetrize([(-1,0,0,.2),(-2,1,0,.2)])` does not
return the four-element list `[(-1,0,0,.2),(-2,1,0,.2),(1,0,0,.2),(2,1,0,.2)]`:
its length assertion (line 69) fires first. -/
theorem symmetrize_scenario_not_returned :
    symmetrize [⟨-1, 0, 0, 1/5⟩, ⟨-2, 1, 0, 1/5⟩] ≠
      some [⟨-1, 0, 0, 1/5⟩, ⟨-2, 1, 0, 1/5⟩, ⟨1, 0, 0, 1/5⟩, ⟨2, 1, 0, 1/5⟩] := by
  norm_num [symmetrize, symmetrize_raw, List.filter]
  exact Option.noConfusion

/-- C1 (amended): on the two-element input `[(-1,0,0,.2),(-2,1,0,.2)]`,
`symmetrize` computes the mirrored four-element list
`[(-1,0,0,.2),(-2,1,0,.2),(1,0,0,.2),(2,1,0,.2)]` but then aborts with its
length assertion (output length 4 ≠ input length 2) instead of returning it. -/
theorem symmetrize_scenario_aborts :
    symmetrize_raw [⟨-1, 0, 0, 1/5⟩, ⟨-2, 1, 0, 1/5⟩] =
      [⟨-1, 0, 0, 1/5⟩, ⟨-2, 1, 0, 1/5⟩, ⟨1, 0, 0, 1/5⟩, ⟨2, 1, 0, 1/5⟩] ∧
    symmetrize [⟨-1, 0, 0, 1/5⟩, ⟨-2, 1, 0, 1/5⟩] = none := by
  constructor
  · norm_num [symmetrize_raw, List.filter]
  · norm_num [symmetrize, symmetrize_raw, List.filter]

/-- C5: `symmetrize` returns normally exactly when the blobs with `x < 0`
are half the input, and whenever it returns the output length equals the
input length; otherwise it aborts (assertion failure, modelled as `none`). -/
theorem symmetrize_returns_iff_balanced (loc : List Blob) :
    ((symmetrize loc).isSome ↔ 2 * (loc.filter (fun a => a.x < 0)).length = loc.length) ∧
    (∀ out, symmetrize loc = some out → out.length = loc.length) := by
  constructor
  · rw [symmetrize]
    by_cases hc : (symmetrize_raw loc).length = loc.length
    · rw [if_pos hc, symmetrize_raw_length loc] at *
      simp [hc]
    · rw [if_neg hc, symmetrize_raw_length loc] at *
      simp [hc]
  · intro out h
    exact (symmetrize_eq_some h).2

/-- C5 witness: a concrete balanced input on which `symmetrize` returns a
list of the input's length. -/
theorem symmetrize_returns_iff_balanced_witness :
    symmetrize [⟨-1, 0, 0, 1/5⟩, ⟨1, 0, 0, 1/5⟩] = some [⟨-1, 0, 0, 1/5⟩, ⟨1, 0, 0, 1/5⟩] ∧
    ([⟨-1, 0, 0, 1/5⟩, ⟨1, 0, 0, 1/5⟩] : List Blob).length =
      ([⟨-1, 0, 0, 1/5⟩, ⟨1, 0, 0, 1/5⟩] : List Blob).length := by
  have h : symmetrize [⟨-1, 0, 0, 1/5⟩, ⟨1, 0, 0, 1/5⟩] =
      some [⟨-1, 0, 0, 1/5⟩, ⟨1, 0, 0, 1/5⟩] := by
    norm_num [symmetrize, symmetrize_raw, List.filter]
  exact ⟨h, (symmetrize_returns_iff_balanced _).2 _ h⟩

/-- C10: every blob in a list returned normally by `symmetrize` has
`x ≠ 0`: the first half of the output has `x < 0`, the second half has
`x > 0`, and an input blob lying on the symmetry plane never appears in
the output. -/
theorem symmetrize_output_off_plane (loc out : List Blob)
    (h : symmetrize loc = some out) :
    (∀ b ∈ out.take (out.length / 2), b.x < 0) ∧
    (∀ b ∈ out.drop (out.length / 2), 0 < b.x) ∧
    (∀ b ∈ out, b.x ≠ 0) ∧
    (∀ b ∈ loc, b.x = 0 → b ∉ out) := by
  obtain ⟨rfl, _⟩ := symmetrize_eq_some h
  have hhalf : (symmetrize_raw loc).length / 2 = (loc.filter (fun a => a.x < 0)).length := by
    rw [symmetrize_raw_length]
    omega
  have htake : (symmetrize_raw loc).take ((symmetrize_raw loc).length / 2) =
      loc.filter (fun a => a.x < 0) := by
    rw [hhalf]
    conv_lhs => rw [symmetrize_raw]
    exact List.take_left _ _
  have hdrop : (symmetrize_raw loc).drop ((symmetrize_raw loc).length / 2) =
      (loc.filter (fun a => a.x < 0)).map (fun a => Blob.mk (-a.x) a.y a.z a.r) := by
    rw [hhalf]
    conv_lhs => rw [symmetrize_raw]
    exact List.drop_left _ _
  have hl : ∀ b ∈ (symmetrize_raw loc).take ((symmetrize_raw loc).length / 2), b.x < 0 := by
    rw [htake]
    intro b hb
    exact (mem_filter_neg_x hb).2
  have hr : ∀ b ∈ (symmetrize_raw loc).drop ((symmetrize_raw loc).length / 2), 0 < b.x := by
    rw [hdrop]
    intro b hb
    obtain ⟨a, ha, rfl⟩ := List.mem_map.mp hb
    simpa using neg_pos.mpr (mem_filter_neg_x ha).2
  have hne : ∀ b ∈ symmetrize_raw loc, b.x ≠ 0 := by
    intro b hb
    rw [← List.take_append_drop ((symmetrize_raw loc).length / 2) (symmetrize_raw loc)]
      at hb
    rcases List.mem_append.mp hb with hb | hb
    · exact ne_of_lt (hl b hb)
    · exact (ne_of_lt (hr b hb)).symm
  exact ⟨hl, hr, hne, fun b _ hb0 hbmem => hne b hbmem hb0⟩

/-- C10 witness: a concrete normally-returned output, with both halves off
the plane and the plane-avoidance facts instantiated. -/
theorem symmetrize_output_off_plane_witness :
    symmetrize [⟨-1, 2, 3, 1/5⟩, ⟨1, 2, 3, 1/5⟩] = some [⟨-1, 2, 3, 1/5⟩, ⟨1, 2, 3, 1/5⟩] ∧
    ((∀ b ∈ ([⟨-1, 2, 3, 1/5⟩, ⟨1, 2, 3, 1/5⟩] : List Blob).take
        (([⟨-1, 2, 3, 1/5⟩, ⟨1, 2, 3, 1/5⟩] : List Blob).length / 2), b.x < 0) ∧
      (∀ b ∈ ([⟨-1, 2, 3, 1/5⟩, ⟨1, 2, 3, 1/5⟩] : List Blob).drop
        (([⟨-1, 2, 3, 1/5⟩, ⟨1, 2, 3, 1/5⟩] : List Blob).length / 2), 0 < b.x) ∧
      (∀ b ∈ ([⟨-1, 2, 3, 1/5⟩, ⟨1, 2, 3, 1/5⟩] : List Blob), b.x ≠ 0) ∧
      (∀ b ∈ ([⟨-1, 2, 3, 1/5⟩, ⟨1, 2, 3, 1/5⟩] : List Blob), b.x = 0 →
        b ∉ ([⟨-1, 2, 3, 1/5⟩, ⟨1, 2, 3, 1/5⟩] : List Blob))) := by
  have h : symmetrize [⟨-1, 2, 3, 1/5⟩, ⟨1, 2, 3, 1/5⟩] =
      some [⟨-1, 2, 3, 1/5⟩, ⟨1, 2, 3, 1/5⟩] := by
    norm_num [symmetrize, symmetrize_raw, List.filter]
  exact ⟨h, symmetrize_output_off_plane _ _ h⟩

/-- `loc` is already symmetric: its blobs with `x < 0` together with their
mirror images across `x = 0` make up the whole list, as a multiset. -/
def IsSymmetricLoc (loc : List Blob) : Prop := loc.Perm (symmetrize_raw loc)

/-- C6: on an already-symmetric input, applying `symmetrize` twice returns
a list of the same length and the same multiset of points as applying it
once. -/
theorem symmetrize_idem_on_symmetric (loc : List Blob) (h : IsSymmetricLoc loc) :
    ∃ out out2, symmetrize loc = some out ∧ symmetrize out = some out2 ∧
      out2.length = out.length ∧ out2.Perm out := by
  have hlen : (symmetrize_raw loc).length = loc.length := h.length_eq.symm
  refine ⟨symmetrize_raw loc, symmetrize_raw loc, ?_, ?_, rfl, List.Perm.refl _⟩
  · rw [symmetrize, if_pos hlen]
  · rw [symmetrize, symmetrize_raw_idem, if_pos rfl]

/-- C6 witness: a concrete symmetric input on which double application
agrees with single application. -/
theorem symmetrize_idem_on_symmetric_witness :
    IsSymmetricLoc [⟨-1, 0, 0, 1/5⟩, ⟨1, 0, 0, 1/5⟩] ∧
    ∃ out out2, symmetrize [⟨-1, 0, 0, 1/5⟩, ⟨1, 0, 0, 1/5⟩] = some out ∧
      symmetrize out = some out2 ∧ out2.length = out.length ∧ out2.Perm out := by
  have hsym : IsSymmetricLoc [⟨-1, 0, 0, 1/5⟩, ⟨1, 0, 0, 1/5⟩] := by
    unfold IsSymmetricLoc
    have hraw : symmetrize_raw [⟨-1, 0, 0, 1/5⟩, ⟨1, 0, 0, 1/5⟩] =
        [⟨-1, 0, 0, 1/5⟩, ⟨1, 0, 0, 1/5⟩] := by
      norm_num [symmetrize_raw, List.filter]
    rw [hraw]
  exact ⟨hsym, symmetrize_idem_on_symmetric _ hsym⟩

/-! ### Shell sampler claims -/

/-- C3: for an off-plane parent, every returned point lies strictly on the
parent's side of the plane after the parent-translation: `x + previous.x`
is negative when `previous.x < 0` and positive when `previous.x > 0`. -/
theorem sphere_pts_offplane_side (n : ℕ) (md : ℚ) (p : Point)
    (vs locs : List Point) (h : sphere_pts n md p vs = some locs) :
    (p.x < 0 → ∀ a ∈ locs, a.x + p.x < 0) ∧
    (0 < p.x → ∀ a ∈ locs, 0 < a.x + p.x) := by
  unfold sphere_pts at h
  by_cases he : n % 2 = 0
  · rw [if_pos he] at h
    constructor
    · intro hx a ha
      rw [if_neg (ne_of_lt hx), if_pos hx] at h
      have := List.mem_filter.mp (List.mem_of_mem_take (Option.some.inj h ▸ ha))
      simpa using this.2
    · intro hx a ha
      rw [if_neg (ne_of_gt hx), if_neg (asymm hx), if_pos hx] at h
      have := List.mem_filter.mp (List.mem_of_mem_take (Option.some.inj h ▸ ha))
      simpa using this.2
  · rw [if_neg he] at h
    exact absurd h (by simp)

/-- C3 witness: a concrete off-plane call, left side. -/
theorem sphere_pts_offplane_side_witness :
    sphere_pts 2 (1/20) ⟨-1, 0, 0⟩ [⟨-1, 0, 0⟩, ⟨1, 0, 0⟩] = some [⟨-1, 0, 0⟩] ∧
    ∀ a ∈ ([⟨-1, 0, 0⟩] : List Point), a.x + (Point.mk (-1) 0 0).x < 0 := by
  have h : sphere_pts 2 (1/20) ⟨-1, 0, 0⟩ [⟨-1, 0, 0⟩, ⟨1, 0, 0⟩] = some [⟨-1, 0, 0⟩] := by
    norm_num [sphere_pts, List.filter]
  exact ⟨h, (sphere_pts_offplane_side _ _ _ _ _ h).1 (by norm_num)⟩

/-- C9: for an off-plane parent, the result of `sphere_pts` does not
depend on `min_dist` (same candidate grid, same shuffle outcome):
`min_dist` is consulted only in the on-plane branch. -/
theorem sphere_pts_ignores_min_dist_offplane (n : ℕ) (md1 md2 : ℚ)
    (p : Point) (vs : List Point) (h : p.x ≠ 0) :
    sphere_pts n md1 p vs = sphere_pts n md2 p vs := by
  simp [sphere_pts, h]

/-- C9 witness: two calls differing only in `min_dist`, off-plane parent. -/
theorem sphere_pts_ignores_min_dist_offplane_witness :
    sphere_pts 2 (1/20) ⟨-1, 0, 0⟩ [⟨-1, 0, 0⟩, ⟨1, 0, 0⟩] =
      sphere_pts 2 7 ⟨-1, 0, 0⟩ [⟨-1, 0, 0⟩, ⟨1, 0, 0⟩] :=
  sphere_pts_ignores_min_dist_offplane 2 (1/20) 7 ⟨-1, 0, 0⟩ _ (by norm_num)

/-- C7: both sampler preconditions are fatal: an odd point count aborts
(line 35), and an on-plane parent whose left and right candidate pools
differ in size aborts (line 55); in both cases nothing is returned. -/
theorem sphere_pts_assert_fatal (n : ℕ) (md : ℚ) (p : Point) (vs : List Point) :
    (n % 2 ≠ 0 → sphere_pts n md p vs = none) ∧
    (p.x = 0 →
      (vs.filter (fun a => a.x < -md)).length ≠ (vs.filter (fun a => md < a.x)).length →
      sphere_pts n md p vs = none) := by
  constructor
  · intro ho
    rw [sphere_pts, if_neg ho]
  · intro hx hne
    simp [sphere_pts, hx, hne]

/-- C7 witness: a concrete odd-count abort and a concrete unbalanced
on-plane abort. -/
theorem sphere_pts_assert_fatal_witness :
    sphere_pts 3 (1/20) ⟨0, 0, 0⟩ [⟨-1, 0, 0⟩, ⟨1, 0, 0⟩] = none ∧
    sphere_pts 2 (1/20) ⟨0, 0, 0⟩ [⟨-1, 0, 0⟩] = none := by
  constructor
  · exact (sphere_pts_assert_fatal 3 (1/20) ⟨0, 0, 0⟩ _).1 (by norm_num)
  · exact (sphere_pts_assert_fatal 2 (1/20) ⟨0, 0, 0⟩ _).2 rfl
      (by norm_num [List.filter])

/-- C2 (counterexample): an even request on an on-plane parent can return
fewer than `target_count` points even though every assertion passes: with
one candidate per side, `sphere_pts 4` returns normally with only 2
points. -/
theorem sphere_pts_onplane_short_pool :
    sphere_pts 4 (1/20) ⟨0, 0, 0⟩ [⟨-1, 0, 0⟩, ⟨1, 0, 0⟩] =
      some [⟨-1, 0, 0⟩, ⟨1, 0, 0⟩] ∧
    ([(⟨-1, 0, 0⟩ : Point), ⟨1, 0, 0⟩]).length ≠ 4 := by
  constructor
  · norm_num [sphere_pts, List.filter]
  · norm_num

/-- C2 (amended): for an even `target_count`, an on-plane parent and a
nonnegative `min_dist`, when the left and right candidate pools are equal
in size (the assertion) and additionally hold at least `target_count/2`
candidates each, `sphere_pts` returns exactly `target_count` points, of
which exactly `target_count/2` have `x < -min_dist` and exactly
`target_count/2` have `x > min_dist`. -/
theorem sphere_pts_onplane_even_split (n : ℕ) (md : ℚ) (p : Point)
    (vs : List Point) (hp : p.x = 0) (hmd : 0 ≤ md) (he : n % 2 = 0)
    (hbal : (vs.filter (fun a => a.x < -md)).length =
      (vs.filter (fun a => md < a.x)).length)
    (hpool : n / 2 ≤ (vs.filter (fun a => a.x < -md)).length) :
    ∃ locs, sphere_pts n md p vs = some locs ∧ locs.length = n ∧
      (locs.filter (fun a => a.x < -md)).length = n / 2 ∧
      (locs.filter (fun a => md < a.x)).length = n / 2 := by
  have hrun : sphere_pts n md p vs =
      some ((vs.filter (fun a => a.x < -md)).take (n / 2) ++
        (vs.filter (fun a => md < a.x)).take (n / 2)) := by
    simp [sphere_pts, hp, he, hbal]
  have hlenL : ((vs.filter (fun a => a.x < -md)).take (n / 2)).length = n / 2 := by
    rw [List.length_take]
    omega
  have hlenR : ((vs.filter (fun a => md < a.x)).take (n / 2)).length = n / 2 := by
    rw [List.length_take]
    omega
  have hfLL : ((vs.filter (fun a => a.x < -md)).take (n / 2)).filter
      (fun a => a.x < -md) = (vs.filter (fun a => a.x < -md)).take (n / 2) := by
    rw [List.filter_eq_self]
    intro a ha
    exact (List.mem_filter.mp (List.mem_of_mem_take ha)).2
  have hfLR : ((vs.filter (fun a => md < a.x)).take (n / 2)).filter
      (fun a => a.x < -md) = [] := by
    rw [List.filter_eq_nil_iff]
    intro a ha
    have h1 : md < a.x := by
      simpa using (List.mem_filter.mp (List.mem_of_mem_take ha)).2
    simp only [decide_eq_true_eq]
    intro hcon
    linarith
  have hfRL : ((vs.filter (fun a => a.x < -md)).take (n / 2)).filter
      (fun a => md < a.x) = [] := by
    rw [List.filter_eq_nil_iff]
    intro a ha
    have h1 : a.x < -md := by
      simpa using (List.mem_filter.mp (List.mem_of_mem_take ha)).2
    simp only [decide_eq_true_eq]
    intro hcon
    linarith
  have hfRR : ((vs.filter (fun a => md < a.x)).take (n / 2)).filter
      (fun a => md < a.x) = (vs.filter (fun a => md < a.x)).take (n / 2) := by
    rw [List.filter_eq_self]
    intro a ha
    exact (List.mem_filter.mp (List.mem_of_mem_take ha)).2
  refine ⟨_, hrun, ?_, ?_, ?_⟩
  · rw [List.length_append, hlenL, hlenR]
    omega
  · rw [List.filter_append, hfLL, hfLR, List.append_nil, hlenL]
  · rw [List.filter_append, hfRL, hfRR, List.nil_append, hlenR]

/-- C2 witness: a concrete on-plane call with two candidates per side
requesting four points. -/
theorem sphere_pts_onplane_even_split_witness :
    (Point.mk 0 0 0).x = 0 ∧ (0 : ℚ) ≤ 1/20 ∧ 4 % 2 = 0 ∧
    (([⟨-1, 0, 0⟩, ⟨-1, 1, 0⟩, ⟨1, 0, 0⟩, ⟨1, 1, 0⟩] : List Point).filter
      (fun a => a.x < -(1/20))).length =
      (([⟨-1, 0, 0⟩, ⟨-1, 1, 0⟩, ⟨1, 0, 0⟩, ⟨1, 1, 0⟩] : List Point).filter
        (fun a => (1/20 : ℚ) < a.x)).length ∧
    4 / 2 ≤ (([⟨-1, 0, 0⟩, ⟨-1, 1, 0⟩, ⟨1, 0, 0⟩, ⟨1, 1, 0⟩] : List Point).filter
      (fun a => a.x < -(1/20))).length ∧
    ∃ locs, sphere_pts 4 (1/20) ⟨0, 0, 0⟩
        [⟨-1, 0, 0⟩, ⟨-1, 1, 0⟩, ⟨1, 0, 0⟩, ⟨1, 1, 0⟩] = some locs ∧
      locs.length = 4 ∧
      (locs.filter (fun a => a.x < -(1/20))).length = 4 / 2 ∧
      (locs.filter (fun a => (1/20 : ℚ) < a.x)).length = 4 / 2 := by
  have hbal : (([⟨-1, 0, 0⟩, ⟨-1, 1, 0⟩, ⟨1, 0, 0⟩, ⟨1, 1, 0⟩] : List Point).filter
      (fun a => a.x < -(1/20))).length =
      (([⟨-1, 0, 0⟩, ⟨-1, 1, 0⟩, ⟨1, 0, 0⟩, ⟨1, 1, 0⟩] : List Point).filter
        (fun a => (1/20 : ℚ) < a.x)).length := by
    norm_num [List.filter]
  have hpool : 4 / 2 ≤ (([⟨-1, 0, 0⟩, ⟨-1, 1, 0⟩, ⟨1, 0, 0⟩, ⟨1, 1, 0⟩] : List Point).filter
      (fun a => a.x < -(1/20))).length := by
    norm_num [List.filter]
  exact ⟨rfl, by norm_num, rfl, hbal, hpool,
    sphere_pts_onplane_even_split 4 (1/20) ⟨0, 0, 0⟩ _ rfl (by norm_num) rfl hbal hpool⟩

/-! ### Hierarchy builder claims -/

theorem diff_append_left {α : Type} [DecidableEq α] (l₁ l₂ : List α) :
    (l₁ ++ l₂).diff l₁ = l₂ := by
  induction l₁ with
  | nil => simp
  | cons a t ih => simpa [List.diff_cons] using ih

/-- C8: when a level of the hierarchy loop completes, the active point set
is exactly the list of points produced at that level (each sampled point
translated by its parent): every parent has been removed and no other
point remains. -/
theorem make_level_replaces_active_set (n : ℕ) (r md : ℚ)
    (oracle : ℕ → List Point) (ps : List Point) (k : ℕ)
    (blobs : List Blob) (new_pts : List Point) (k2 : ℕ)
    (h : make_level n r md oracle ps k = some (blobs, new_pts, k2)) :
    new_pts = blobs.map Blob.pos := by
  unfold make_level at h
  cases hc : level_calls n r md oracle ps k with
  | none =>
    rw [hc] at h
    exact absurd h (by simp)
  | some v =>
    obtain ⟨bs, kk⟩ := v
    rw [hc] at h
    simp only [diff_append_left, Option.some.injEq, Prod.mk.injEq] at h
    obtain ⟨rfl, rfl, rfl⟩ := h
    rfl

/-- C8 witness: a concrete level pass from the root. -/
theorem make_level_replaces_active_set_witness :
    make_level 2 (1/5) (1/20) (fun _ => [⟨-1, 0, 0⟩, ⟨1, 0, 0⟩]) [⟨0, 0, 0⟩] 0 =
      some ([⟨-1, 0, 0, 1/5⟩, ⟨1, 0, 0, 1/5⟩], [⟨-1, 0, 0⟩, ⟨1, 0, 0⟩], 1) ∧
    ([⟨-1, 0, 0⟩, ⟨1, 0, 0⟩] : List Point) =
      ([⟨-1, 0, 0, 1/5⟩, ⟨1, 0, 0, 1/5⟩] : List Blob).map Blob.pos := by
  have h : make_level 2 (1/5) (1/20) (fun _ => [⟨-1, 0, 0⟩, ⟨1, 0, 0⟩]) [⟨0, 0, 0⟩] 0 =
      some ([⟨-1, 0, 0, 1/5⟩, ⟨1, 0, 0, 1/5⟩], [⟨-1, 0, 0⟩, ⟨1, 0, 0⟩], 1) := by
    norm_num [make_level, level_calls, sphere_pts, Blob.pos, List.filter,
      List.diff, List.erase]
  exact ⟨h, make_level_replaces_active_set _ _ _ _ _ _ _ _ _ h⟩

theorem sphere_pts_mem_side (n : ℕ) (md : ℚ) (p : Point) (vs locs : List Point)
    (h : sphere_pts n md p vs = some locs) :
    (p.x < 0 → ∀ a ∈ locs, a.x + p.x < 0) ∧
    (0 < p.x → ∀ a ∈ locs, 0 < a.x + p.x) ∧
    (p.x = 0 → 0 ≤ md → ∀ a ∈ locs, a.x ≠ 0) := by
  unfold sphere_pts at h
  by_cases he : n % 2 = 0
  · rw [if_pos he] at h
    refine ⟨?_, ?_, ?_⟩
    · intro hx a ha
      rw [if_neg (ne_of_lt hx), if_pos hx] at h
      have hm := List.mem_filter.mp (List.mem_of_mem_take (Option.some.inj h ▸ ha))
      simpa using hm.2
    · intro hx a ha
      rw [if_neg (ne_of_gt hx), if_neg (asymm hx), if_pos hx] at h
      have hm := List.mem_filter.mp (List.mem_of_mem_take (Option.some.inj h ▸ ha))
      simpa using hm.2
    · intro hx hmd a ha
      rw [if_neg (show ¬p.x < 0 by rw [hx]; exact lt_irrefl 0),
        if_neg (show ¬0 < p.x by rw [hx]; exact lt_irrefl 0), if_pos hx] at h
      dsimp only [] at h
      split at h
      · obtain rfl := Option.some.inj h
        rcases List.mem_append.mp ha with hm | hm
        · have h1 : a.x < -md := by
            simpa using (List.mem_filter.mp (List.mem_of_mem_take hm)).2
          have : a.x < 0 := lt_of_lt_of_le h1 (by linarith)
          exact ne_of_lt this
        · have h1 : md < a.x := by
            simpa using (List.mem_filter.mp (List.mem_of_mem_take hm)).2
          exact (ne_of_lt (lt_of_le_of_lt hmd h1)).symm
      · exact absurd h (by simp)
  · rw [if_neg he] at h
    exact absurd h (by simp)

theorem sphere_pts_translated_off_plane (n : ℕ) (md : ℚ) (p : Point)
    (vs locs : List Point) (hmd : 0 ≤ md) (h : sphere_pts n md p vs = some locs) :
    ∀ a ∈ locs, a.x + p.x ≠ 0 := by
  rcases lt_trichotomy p.x 0 with hx | hx | hx
  · intro a ha
    exact ne_of_lt ((sphere_pts_mem_side n md p vs locs h).1 hx a ha)
  · intro a ha
    have := (sphere_pts_mem_side n md p vs locs h).2.2 hx hmd a ha
    rw [hx, add_zero]
    exact this
  · intro a ha
    exact (ne_of_lt ((sphere_pts_mem_side n md p vs locs h).2.1 hx a ha)).symm

theorem level_calls_spec (n : ℕ) (r md : ℚ) (oracle : ℕ → List Point) (hmd : 0 ≤ md)
    (hfull : ∀ k p, ∃ l, sphere_pts n md p (oracle k) = some l ∧ l.length = n) :
    ∀ ps k, ∃ blobs, level_calls n r md oracle ps k = some (blobs, k + ps.length) ∧
      blobs.length = ps.length * n ∧ ∀ b ∈ blobs, b.x ≠ 0 := by
  intro ps
  induction ps with
  | nil =>
    intro k
    exact ⟨[], rfl, by simp, by simp⟩
  | cons p ps ih =>
    intro k
    obtain ⟨l, hl, hlen⟩ := hfull k p
    obtain ⟨rest, hrest, hrlen, hrx⟩ := ih (k + 1)
    refine ⟨l.map (fun a => Blob.mk (a.x + p.x) (a.y + p.y) (a.z + p.z) r) ++ rest,
      ?_, ?_, ?_⟩
    · simp only [level_calls, hl, hrest]
      have harith : k + (p :: ps).length = k + 1 + ps.length := by
        simp [List.length_cons]
        omega
      rw [harith]
    · rw [List.length_append, List.length_map, hlen, hrlen, List.length_cons]
      ring
    · intro b hb
      rcases List.mem_append.mp hb with hm | hm
      · obtain ⟨a, ha, rfl⟩ := List.mem_map.mp hm
        exact sphere_pts_translated_off_plane n md p _ _ hmd hl a ha
      · exact hrx b hm

theorem make_level_spec (n : ℕ) (r md : ℚ) (oracle : ℕ → List Point) (hmd : 0 ≤ md)
    (hfull : ∀ k p, ∃ l, sphere_pts n md p (oracle k) = some l ∧ l.length = n)
    (ps : List Point) (k : ℕ) :
    ∃ blobs, make_level n r md oracle ps k =
        some (blobs, blobs.map Blob.pos, k + ps.length) ∧
      blobs.length = ps.length * n ∧ ∀ b ∈ blobs, b.x ≠ 0 := by
  obtain ⟨blobs, hc, hlen, hx⟩ := level_calls_spec n r md oracle hmd hfull ps k
  refine ⟨blobs, ?_, hlen, hx⟩
  unfold make_level
  rw [hc]
  simp [diff_append_left]

/-- A sampling oracle all of whose calls return the full requested count
for the level sizes used by `make_objects` (8, 4 and 2): beyond the
assertions, each filtered candidate pool is large enough that the slice
`[0:n_pts]` (resp. `[0:n_pts/2]` per side) is not short. -/
def FullOracle (md : ℚ) (oracle : ℕ → List Point) : Prop :=
  ∀ k (p : Point) (n : ℕ), n = 8 ∨ n = 4 ∨ n = 2 →
    ∃ l, sphere_pts n md p (oracle k) = some l ∧ l.length = n

/-- C4 (counterexample): with every assertion passing (the run returns
normally), the hierarchy loop can produce fewer than 104 blobs — here 8 —
because a starved candidate pool silently truncates each level. -/
theorem make_objects_coords_short_run :
    (make_objects_coords (1/20) (fun _ => [⟨-1, 0, 0⟩, ⟨1, 0, 0⟩])).map List.length =
      some 8 ∧
    some (8 : ℕ) ≠ some (104 : ℕ) := by
  constructor
  · norm_num [make_objects_coords, meta_levels, build_loop, make_level, level_calls,
      sphere_pts, Blob.pos, List.filter, List.diff, List.erase]
  · decide

/-- C4 (amended): with level counts (8,4,2) and every sampler call
returning its full requested count (which needs pools of sufficient size
beyond the bare assertions) and a nonnegative `min_dist`, the hierarchy
loop returns exactly 8 + 8·4 + 8·4·2 = 104 blobs, and the root point at
the origin does not occur as a blob position. -/
theorem make_objects_coords_count104 (md : ℚ) (oracle : ℕ → List Point)
    (hmd : 0 ≤ md) (hfull : FullOracle md oracle) :
    ∃ bs, make_objects_coords md oracle = some bs ∧ bs.length = 104 ∧
      ∀ b ∈ bs, b.pos ≠ (⟨0, 0, 0⟩ : Point) := by
  have h8 : ∀ k p, ∃ l, sphere_pts 8 md p (oracle k) = some l ∧ l.length = 8 :=
    fun k p => hfull k p 8 (Or.inl rfl)
  have h4 : ∀ k p, ∃ l, sphere_pts 4 md p (oracle k) = some l ∧ l.length = 4 :=
    fun k p => hfull k p 4 (Or.inr (Or.inl rfl))
  have h2 : ∀ k p, ∃ l, sphere_pts 2 md p (oracle k) = some l ∧ l.length = 2 :=
    fun k p => hfull k p 2 (Or.inr (Or.inr rfl))
  obtain ⟨b1, hm1, hl1, hx1⟩ := make_level_spec 8 (3/5) md oracle hmd h8 [⟨0, 0, 0⟩] 0
  obtain ⟨b2, hm2, hl2, hx2⟩ :=
    make_level_spec 4 (2/5) md oracle hmd h4 (b1.map Blob.pos) (0 + [(⟨0, 0, 0⟩ : Point)].length)
  obtain ⟨b3, hm3, hl3, hx3⟩ :=
    make_level_spec 2 (1/5) md oracle hmd h2 (b2.map Blob.pos)
      (0 + [(⟨0, 0, 0⟩ : Point)].length + (b1.map Blob.pos).length)
  have hrun : make_objects_coords md oracle = some ((([] ++ b1) ++ b2) ++ b3) := by
    unfold make_objects_coords meta_levels
    simp only [build_loop, hm1, hm2, hm3]
  refine ⟨_, hrun, ?_, ?_⟩
  · simp only [List.length_append, List.length_nil, List.length_map] at *
    simp only [List.length_cons, List.length_nil] at hl1
    omega
  · intro b hb
    have hbx : b.x ≠ 0 := by
      rcases List.mem_append.mp hb with hb | hb
      · rcases List.mem_append.mp hb with hb | hb
        · rcases List.mem_append.mp hb with hb | hb
          · exact absurd hb (List.not_mem_nil b)
          · exact hx1 b hb
        · exact hx2 b hb
      · exact hx3 b hb
    intro hcon
    exact hbx (congrArg Point.x hcon)

/-- Eight candidate points on the left side (x = -1) of the plane. -/
def demo_neg : List Point :=
  [⟨-1, 0, 0⟩, ⟨-1, 1, 0⟩, ⟨-1, 2, 0⟩, ⟨-1, 3, 0⟩,
   ⟨-1, 4, 0⟩, ⟨-1, 5, 0⟩, ⟨-1, 6, 0⟩, ⟨-1, 7, 0⟩]

/-- Eight candidate points on the right side (x = 1) of the plane. -/
def demo_pos : List Point :=
  [⟨1, 0, 0⟩, ⟨1, 1, 0⟩, ⟨1, 2, 0⟩, ⟨1, 3, 0⟩,
   ⟨1, 4, 0⟩, ⟨1, 5, 0⟩, ⟨1, 6, 0⟩, ⟨1, 7, 0⟩]

/-- A concrete shuffled candidate list rich enough that every `sphere_pts`
call of a `make_objects` run returns its full requested count. -/
def demo_vertices : List Point := demo_neg ++ demo_pos

theorem demo_neg_x : ∀ a ∈ demo_neg, a.x = -1 := by
  intro a ha
  fin_cases ha <;> rfl

theorem demo_pos_x : ∀ a ∈ demo_pos, a.x = 1 := by
  intro a ha
  fin_cases ha <;> rfl

theorem demo_left_filter :
    demo_vertices.filter (fun a => a.x < -(1/20 : ℚ)) = demo_neg := by
  norm_num [demo_vertices, demo_neg, demo_pos, List.filter]

theorem demo_right_filter :
    demo_vertices.filter (fun a => (1/20 : ℚ) < a.x) = demo_pos := by
  norm_num [demo_vertices, demo_neg, demo_pos, List.filter]

theorem demo_vertices_full : FullOracle (1/20) (fun _ => demo_vertices) := by
  intro k p n hn
  have hne : n % 2 = 0 ∧ n ≤ 8 := by
    rcases hn with rfl | rfl | rfl <;> exact ⟨rfl, by norm_num⟩
  rcases lt_trichotomy p.x 0 with hx | hx | hx
  · have hneg : demo_neg.filter (fun a => decide (a.x + p.x < 0)) = demo_neg := by
      rw [List.filter_eq_self]
      intro a ha
      have hax : a.x = -1 := demo_neg_x a ha
      simp only [decide_eq_true_eq, hax]
      linarith
    have hbig : 8 ≤ (demo_vertices.filter (fun a => a.x + p.x < 0)).length := by
      rw [demo_vertices, List.filter_append, List.length_append]
      have h8 : (demo_neg.filter (fun a => decide (a.x + p.x < 0))).length = 8 := by
        rw [hneg]
        rfl
      omega
    refine ⟨(demo_vertices.filter (fun a => a.x + p.x < 0)).take n, ?_, ?_⟩
    · simp [sphere_pts, hne.1, hx, ne_of_lt hx]
    · rw [List.length_take]
      omega
  · refine ⟨demo_neg.take (n / 2) ++ demo_pos.take (n / 2), ?_, ?_⟩
    · unfold sphere_pts
      rw [if_pos hne.1, if_neg (show ¬p.x < 0 by rw [hx]; exact lt_irrefl 0),
        if_neg (show ¬0 < p.x by rw [hx]; exact lt_irrefl 0), if_pos hx]
      dsimp only []
      rw [demo_left_filter, demo_right_filter,
        if_pos (show demo_neg.length = demo_pos.length from rfl)]
    · rw [List.length_append, List.length_take, List.length_take]
      have hn8 : demo_neg.length = 8 := rfl
      have hp8 : demo_pos.length = 8 := rfl
      omega
  · have hpos : demo_pos.filter (fun a => decide (0 < a.x + p.x)) = demo_pos := by
      rw [List.filter_eq_self]
      intro a ha
      have hax : a.x = 1 := demo_pos_x a ha
      simp only [decide_eq_true_eq, hax]
      linarith
    have hbig : 8 ≤ (demo_vertices.filter (fun a => 0 < a.x + p.x)).length := by
      rw [demo_vertices, List.filter_append, List.length_append]
      have h8 : (demo_pos.filter (fun a => decide (0 < a.x + p.x))).length = 8 := by
        rw [hpos]
        rfl
      omega
    refine ⟨(demo_vertices.filter (fun a => 0 < a.x + p.x)).take n, ?_, ?_⟩
    · simp [sphere_pts, hne.1, hx, ne_of_gt hx, asymm hx]
    · rw [List.length_take]
      omega

/-- C4 witness: the concrete oracle `demo_vertices` satisfies the
full-count hypothesis, and the run returns 104 blobs with none at the
origin. -/
theorem make_objects_coords_count104_witness :
    (0 : ℚ) ≤ 1/20 ∧ FullOracle (1/20) (fun _ => demo_vertices) ∧
    ∃ bs, make_objects_coords (1/20) (fun _ => demo_vertices) = some bs ∧
      bs.length = 104 ∧ ∀ b ∈ bs, b.pos ≠ (⟨0, 0, 0⟩ : Point) :=
  ⟨by norm_num, demo_vertices_full,
    make_objects_coords_count104 (1/20) _ (by norm_num) demo_vertices_full⟩
